import Mathlib

/- Verification of the lexical scanner in `src/lexer.rs` of `ranmaru22/lin-bootstrap`.

The Rust scanner walks a `Peekable<Chars>` cursor over the input text; we embed the
input as a `List Char` (Rust `char` and Lean `Char` are both Unicode scalar values)
and each `while let` loop as a recursive function that returns the value it produces
together with the remaining (unconsumed) input.  the `tokens.push(t)` of Rust followed by
a final `tokens.push(Token::EOF)` is rendered in the usual cons style: each dispatch
step prepends its token to the tokens of the remaining input, and the empty input
yields `[Token.EOF]`.

The `f64` payload of `Token::Float` is not modelled numerically (no claim concerns
float values); a `Float` token carries the accepted literal text instead, and
`floatParseOk` models exactly when the Rust `f64::from_str` accepts the literal, for
the literals `make_number` can build (they always start with an ASCII digit or `.`,
so the sign / `inf` / `nan` alternatives of the Rust grammar cannot apply). -/

namespace Lexer

/-- The token type of `lexer.rs` (`enum Token`). `Token::String` is rendered as
`Str` to avoid shadowing the ambient string type; `Token::Float` carries the
accepted literal text (see the header comment). -/
inductive Token where
  | EOF : Token
  | Function (name : String) : Token
  | Int (value : Int) : Token
  | Float (lit : String) : Token
  | Symbol (name : String) : Token
  | Str (value : String) : Token
  | OpeningBrace : Token
  | ClosingBrace : Token
  deriving DecidableEq, Repr

/-- The error type of `lexer.rs` (`enum LexerError`). -/
inductive LexerError where
  | InvalidNumber : LexerError
  | InvalidToken : LexerError
  | InvalidSymbolName : LexerError
  | UnterminatedString : LexerError
  deriving DecidableEq, Repr

/-- The private source type `enum Either<L, R>`. -/
inductive Either (L R : Type) where
  | Left (l : L) : Either L R
  | Right (r : R) : Either L R
  deriving DecidableEq, Repr

/-- Source constant `static LEGAL_EXIT_CHARS: [char; 1] = ['\x7d'];`. -/
def LEGAL_EXIT_CHARS : List Char := ['}']

/-- Source constant `static RESERVED_CHARS: [char; 2] = ['\x27', '\x7b'];`. -/
def RESERVED_CHARS : List Char := ['\x27', '{']

/-- Rust `char::is_ascii_whitespace`: space, horizontal tab, line feed,
form feed, carriage return. -/
def isAsciiWhitespace (c : Char) : Bool :=
  c = ' ' || c = '\t' || c = '\n' || c = '\x0C' || c = '\r'

/-- Rust `char::is_digit(10)` (equivalently `is_ascii_digit`). -/
def isAsciiDigit (c : Char) : Bool :=
  '0' ≤ c && c ≤ '9'

/-- Numeric value of an ASCII digit character. -/
def digitVal (c : Char) : Nat := c.toNat - '0'.toNat

/-- Value of a string of ASCII digits, most significant first. -/
def digitsToNat (ds : List Char) : Nat :=
  ds.foldl (fun a c => a * 10 + digitVal c) 0

/-- Rust `str::parse::<i64>`: an optional sign followed by a non-empty run of
ASCII digits, whose value must fit in the 64-bit signed range; anything else
(empty string, stray characters, overflow) fails. -/
def parseI64 (s : List Char) : Option Int :=
  match s with
  | [] => none
  | c :: rest =>
    let p : Bool × List Char :=
      if c = '-' then (true, rest)
      else if c = '+' then (false, rest)
      else (false, c :: rest)
    if p.2.isEmpty then none
    else if !p.2.all isAsciiDigit then none
    else if p.1 then
      if digitsToNat p.2 ≤ 2 ^ 63 then some (-(digitsToNat p.2 : Int)) else none
    else
      if digitsToNat p.2 ≤ 2 ^ 63 - 1 then some (Int.ofNat (digitsToNat p.2)) else none

/-- Mantissa part of the Rust `f64::from_str` grammar (without the sign and
`inf`/`nan` alternatives, which cannot occur in strings built by `make_number`):
`Digits | Digits . Digits? | . Digits`. -/
def mantissaOk (m : List Char) : Bool :=
  let ip := m.takeWhile isAsciiDigit
  match m.drop ip.length with
  | [] => !ip.isEmpty
  | '.' :: frac => (!ip.isEmpty || !frac.isEmpty) && frac.all isAsciiDigit
  | _ => false

/-- Exponent suffix of the Rust `f64::from_str` grammar: empty, or `e`/`E`
followed by an optional sign and a non-empty run of digits. -/
def expSuffixOk : List Char → Bool
  | [] => true
  | _ :: r =>
    let r2 : List Char :=
      match r with
      | '+' :: t => t
      | '-' :: t => t
      | t => t
    !r2.isEmpty && r2.all isAsciiDigit

/-- Whether Rust `str::parse::<f64>` accepts the literal (for the literals
`make_number` can build; see the header comment). -/
def floatParseOk (s : List Char) : Bool :=
  let mant := s.takeWhile (fun c => c ≠ 'e' && c ≠ 'E')
  mantissaOk mant && expSuffixOk (s.drop mant.length)

/-- The `while let Some(ch) = self.text.peek()` loop of `Lexer::make_number`:
`numStr` and `hasDot` are the loop accumulators; the result on success is the
final `num_str`, the final `has_dot`, and the remaining input.  A peeked `}`
breaks without being consumed; a reserved character fails with `InvalidNumber`;
consumed whitespace breaks; a second `.` fails; everything else is pushed. -/
def makeNumberLoop (hasDot : Bool) (numStr : List Char) :
    List Char → Except LexerError (List Char × Bool × List Char)
  | [] => .ok (numStr, hasDot, [])
  | c :: rest =>
    if LEGAL_EXIT_CHARS.contains c then .ok (numStr, hasDot, c :: rest)
    else if RESERVED_CHARS.contains c then .error .InvalidNumber
    else if isAsciiWhitespace c then .ok (numStr, hasDot, rest)
    else if c = '.' then
      if hasDot then .error .InvalidNumber
      else makeNumberLoop true (numStr ++ ['.']) rest
    else makeNumberLoop hasDot (numStr ++ [c]) rest

/-- Model of `Lexer::make_number`: run the scan loop seeded with `ch`, then parse the
accumulated literal as an `i64` (no dot) or an `f64` (dot), converting parse
failure into `InvalidNumber`. -/
def makeNumber (ch : Char) (text : List Char) :
    Except LexerError (Either Int String × List Char) :=
  match makeNumberLoop (ch = '.') [ch] text with
  | .error e => .error e
  | .ok (numStr, hasDot, rest) =>
    if hasDot then
      if floatParseOk numStr then .ok (.Right (String.mk numStr), rest)
      else .error .InvalidNumber
    else
      match parseI64 numStr with
      | some n => .ok (.Left n, rest)
      | none => .error .InvalidNumber

/-- The `while let Some(ch) = self.text.next()` loop of `Lexer::make_string`:
consume characters verbatim until a closing quote; exhausting the input without
one is `UnterminatedString`. -/
def makeStringLoop (acc : List Char) :
    List Char → Except LexerError (List Char × List Char)
  | [] => .error .UnterminatedString
  | c :: rest =>
    if c = '"' then .ok (acc, rest)
    else makeStringLoop (acc ++ [c]) rest

/-- The `while let Some(ch) = self.text.peek()` loop of `Lexer::make_symbol`:
a peeked `}` or ASCII whitespace breaks without being consumed; a reserved
character fails with `InvalidSymbolName`; everything else is consumed and
appended to the name. -/
def makeSymbolLoop (acc : List Char) :
    List Char → Except LexerError (List Char × List Char)
  | [] => .ok (acc, [])
  | c :: rest =>
    if LEGAL_EXIT_CHARS.contains c || isAsciiWhitespace c then .ok (acc, c :: rest)
    else if RESERVED_CHARS.contains c then .error .InvalidSymbolName
    else makeSymbolLoop (acc ++ [c]) rest

/-- Model of `Lexer::make_symbol`: seed the name with the optional entry character and
run the scan loop. -/
def makeSymbol (entryChar : Option Char) (text : List Char) :
    Except LexerError (List Char × List Char) :=
  makeSymbolLoop (match entryChar with | some c => [c] | none => []) text

/-- Model of `Peekable::peek` on the remaining input. -/
def peek (t : List Char) : Option Char := t.head?

/-- Model of `Iterator::next` on the remaining input: the next character (if any) and
the rest. -/
def next (t : List Char) : Option Char × List Char := (t.head?, t.tail)

/-- Variant of the `Lexer::make_symbol` loop with the `self.text.next().unwrap()` call
modelled faithfully: the outer `Option` layer is the panic effect, and `none`
is the panic of `unwrap` receiving `None` after a successful peek.  The theorem
for the safety claim shows this never happens, i.e. this function agrees with
`makeSymbolLoop` wrapped in `some`. -/
def makeSymbolLoopP (acc : List Char) (text : List Char) :
    Option (Except LexerError (List Char × List Char)) :=
  match hp : peek text with
  | none => some (.ok (acc, text))
  | some c =>
    if LEGAL_EXIT_CHARS.contains c || isAsciiWhitespace c then some (.ok (acc, text))
    else if RESERVED_CHARS.contains c then some (.error .InvalidSymbolName)
    else
      match hn : next text with
      | (none, _) => none
      | (some c2, rest) => makeSymbolLoopP (acc ++ [c2]) rest
termination_by text.length
decreasing_by
  simp only [next, Prod.mk.injEq] at hn
  obtain ⟨h1, h2⟩ := hn
  cases text with
  | nil => simp [peek] at hp
  | cons a as =>
    simp only [List.tail_cons] at h2
    subst h2
    simp [List.length_cons]

/-- Suffix bound for `makeNumberLoop`: the remaining input it returns is no
longer than its input. -/
theorem makeNumberLoop_length {hasDot : Bool} {numStr : List Char} {t ns : List Char}
    {hd : Bool} {r : List Char}
    (h : makeNumberLoop hasDot numStr t = .ok (ns, hd, r)) : r.length ≤ t.length := by
  induction t generalizing hasDot numStr with
  | nil =>
    simp only [makeNumberLoop] at h
    cases h
    simp
  | cons c rest ih =>
    simp only [makeNumberLoop] at h
    split at h
    · cases h; simp
    · split at h
      · cases h
      · split at h
        · cases h; simp
        · split at h
          · split at h
            · cases h
            · exact le_trans (ih h) (by simp)
          · exact le_trans (ih h) (by simp)

/-- Suffix bound for `makeNumber`. -/
theorem makeNumber_length {ch : Char} {t : List Char} {v : Either Int String}
    {r : List Char} (h : makeNumber ch t = .ok (v, r)) : r.length ≤ t.length := by
  unfold makeNumber at h
  split at h
  · cases h
  · rename_i heq
    split at h
    · split at h
      · cases h
        exact makeNumberLoop_length heq
      · cases h
    · split at h
      · cases h
        exact makeNumberLoop_length heq
      · cases h

/-- Suffix bound for `makeStringLoop`. -/
theorem makeStringLoop_length {acc t s r : List Char}
    (h : makeStringLoop acc t = .ok (s, r)) : r.length ≤ t.length := by
  induction t generalizing acc with
  | nil => simp [makeStringLoop] at h
  | cons c rest ih =>
    simp only [makeStringLoop] at h
    split at h
    · cases h; simp
    · exact le_trans (ih h) (by simp)

/-- Suffix bound for `makeSymbolLoop`. -/
theorem makeSymbolLoop_length {acc t s r : List Char}
    (h : makeSymbolLoop acc t = .ok (s, r)) : r.length ≤ t.length := by
  induction t generalizing acc with
  | nil =>
    simp only [makeSymbolLoop] at h
    cases h; simp
  | cons c rest ih =>
    simp only [makeSymbolLoop] at h
    split at h
    · cases h; simp
    · split at h
      · cases h
      · exact le_trans (ih h) (by simp)

/-- Suffix bound for `makeSymbol`. -/
theorem makeSymbol_length {e : Option Char} {t s r : List Char}
    (h : makeSymbol e t = .ok (s, r)) : r.length ≤ t.length :=
  makeSymbolLoop_length h

/-- The `while let Some(ch) = self.text.next()` dispatch loop of
`Lexer::tokenize`, in cons style: each arm of the Rust `match` prepends the
token it pushes to the tokens of the remaining input, and exhausted input
yields the final `tokens.push(Token::EOF)`. -/
def tokenizeLoop (text : List Char) : Except LexerError (List Token) :=
  match text with
  | [] => .ok [.EOF]
  | ch :: rest =>
    if isAsciiWhitespace ch then tokenizeLoop rest
    else if isAsciiDigit ch || ch = '.' then
      match h : makeNumber ch rest with
      | .ok (.Left int, rest2) => (tokenizeLoop rest2).map (fun ts => .Int int :: ts)
      | .ok (.Right float, rest2) => (tokenizeLoop rest2).map (fun ts => .Float float :: ts)
      | .error e => .error e
    else if ch = '\x27' then
      match h : makeSymbol none rest with
      | .ok (symbol, rest2) => (tokenizeLoop rest2).map (fun ts => .Symbol (String.mk symbol) :: ts)
      | .error e => .error e
    else if ch = '"' then
      match h : makeStringLoop [] rest with
      | .ok (string, rest2) => (tokenizeLoop rest2).map (fun ts => .Str (String.mk string) :: ts)
      | .error e => .error e
    else if ch = '{' then (tokenizeLoop rest).map (fun ts => .OpeningBrace :: ts)
    else if ch = '}' then (tokenizeLoop rest).map (fun ts => .ClosingBrace :: ts)
    else if ch.toNat < 128 then
      match h : makeSymbol (some ch) rest with
      | .ok (symbol, rest2) => (tokenizeLoop rest2).map (fun ts => .Function (String.mk symbol) :: ts)
      | .error e => .error e
    else .error .InvalidToken
termination_by text.length
decreasing_by
  · simp [List.length_cons, Nat.lt_succ_iff]
  · exact Nat.lt_succ_of_le (makeNumber_length h)
  · exact Nat.lt_succ_of_le (makeNumber_length h)
  · exact Nat.lt_succ_of_le (makeSymbol_length h)
  · exact Nat.lt_succ_of_le (makeStringLoop_length h)
  · simp [List.length_cons, Nat.lt_succ_iff]
  · simp [List.length_cons, Nat.lt_succ_iff]
  · exact Nat.lt_succ_of_le (makeSymbol_length h)

/-- Model of `Lexer::tokenize` on a whole input string. -/
def tokenize (s : String) : Except LexerError (List Token) :=
  tokenizeLoop s.data

/-- Fuel-indexed version of the dispatch loop: `fuel` bounds the number of
iterations of the main `while let` loop, and `none` means the fuel ran out.
The completeness theorem shows fuel `length + 1` always suffices, which is the
linear work bound of the spec. -/
def tokenizeFuel : Nat → List Char → Option (Except LexerError (List Token))
  | 0, _ => none
  | _ + 1, [] => some (.ok [.EOF])
  | fuel + 1, ch :: rest =>
    if isAsciiWhitespace ch then tokenizeFuel fuel rest
    else if isAsciiDigit ch || ch = '.' then
      match makeNumber ch rest with
      | .ok (.Left int, rest2) =>
        (tokenizeFuel fuel rest2).map (fun r => r.map (fun ts => .Int int :: ts))
      | .ok (.Right float, rest2) =>
        (tokenizeFuel fuel rest2).map (fun r => r.map (fun ts => .Float float :: ts))
      | .error e => some (.error e)
    else if ch = '\x27' then
      match makeSymbol none rest with
      | .ok (symbol, rest2) =>
        (tokenizeFuel fuel rest2).map (fun r => r.map (fun ts => .Symbol (String.mk symbol) :: ts))
      | .error e => some (.error e)
    else if ch = '"' then
      match makeStringLoop [] rest with
      | .ok (string, rest2) =>
        (tokenizeFuel fuel rest2).map (fun r => r.map (fun ts => .Str (String.mk string) :: ts))
      | .error e => some (.error e)
    else if ch = '{' then
      (tokenizeFuel fuel rest).map (fun r => r.map (fun ts => .OpeningBrace :: ts))
    else if ch = '}' then
      (tokenizeFuel fuel rest).map (fun r => r.map (fun ts => .ClosingBrace :: ts))
    else if ch.toNat < 128 then
      match makeSymbol (some ch) rest with
      | .ok (symbol, rest2) =>
        (tokenizeFuel fuel rest2).map (fun r => r.map (fun ts => .Function (String.mk symbol) :: ts))
      | .error e => some (.error e)
    else some (.error .InvalidToken)

/-- Fuel `length + 1` always suffices for the fuelled dispatch loop, and then it
computes exactly what the recursive dispatch loop computes: the main loop runs at
most `length + 1` iterations because every iteration consumes at least one input
character or returns. -/
theorem tokenizeFuel_complete (fuel : Nat) (s : List Char) (h : s.length < fuel) :
    tokenizeFuel fuel s = some (tokenizeLoop s) := by
  induction fuel generalizing s with
  | zero => omega
  | succ fuel ih =>
    match s with
    | [] => rw [tokenizeLoop.eq_def]; rfl
    | ch :: rest =>
      simp only [List.length_cons] at h
      rw [tokenizeLoop.eq_def]
      simp only [tokenizeFuel]
      split_ifs with hws hnum hsym hstr hopen hclose hascii
      · exact ih rest (by omega)
      · split
        · rename_i heq1
          split
          all_goals rename_i heq2
          all_goals rw [heq1] at heq2
          · rw [Except.ok.injEq, Prod.mk.injEq] at heq2
            obtain ⟨he, hr⟩ := heq2
            cases he; cases hr
            rw [ih _ (by have := makeNumber_length heq1; omega)]
            rfl
          · simp at heq2
          · simp at heq2
        · rename_i heq1
          split
          all_goals rename_i heq2
          all_goals rw [heq1] at heq2
          · simp at heq2
          · rw [Except.ok.injEq, Prod.mk.injEq] at heq2
            obtain ⟨he, hr⟩ := heq2
            cases he; cases hr
            rw [ih _ (by have := makeNumber_length heq1; omega)]
            rfl
          · simp at heq2
        · rename_i heq1
          split
          all_goals rename_i heq2
          all_goals rw [heq1] at heq2
          · simp at heq2
          · simp at heq2
          · rw [Except.error.injEq] at heq2
            cases heq2
            rfl
      · split
        · rename_i heq1
          split
          all_goals rename_i heq2
          all_goals rw [heq1] at heq2
          · rw [Except.ok.injEq, Prod.mk.injEq] at heq2
            obtain ⟨he, hr⟩ := heq2
            cases he; cases hr
            rw [ih _ (by have := makeSymbol_length heq1; omega)]
            rfl
          · simp at heq2
        · rename_i heq1
          split
          all_goals rename_i heq2
          all_goals rw [heq1] at heq2
          · simp at heq2
          · rw [Except.error.injEq] at heq2
            cases heq2
            rfl
      · split
        · rename_i heq1
          split
          all_goals rename_i heq2
          all_goals rw [heq1] at heq2
          · rw [Except.ok.injEq, Prod.mk.injEq] at heq2
            obtain ⟨he, hr⟩ := heq2
            cases he; cases hr
            rw [ih _ (by have := makeStringLoop_length heq1; omega)]
            rfl
          · simp at heq2
        · rename_i heq1
          split
          all_goals rename_i heq2
          all_goals rw [heq1] at heq2
          · simp at heq2
          · rw [Except.error.injEq] at heq2
            cases heq2
            rfl
      · rw [ih rest (by omega)]
        rfl
      · rw [ih rest (by omega)]
        rfl
      · split
        · rename_i heq1
          split
          all_goals rename_i heq2
          all_goals rw [heq1] at heq2
          · rw [Except.ok.injEq, Prod.mk.injEq] at heq2
            obtain ⟨he, hr⟩ := heq2
            cases he; cases hr
            rw [ih _ (by have := makeSymbol_length heq1; omega)]
            rfl
          · simp at heq2
        · rename_i heq1
          split
          all_goals rename_i heq2
          all_goals rw [heq1] at heq2
          · simp at heq2
          · rw [Except.error.injEq] at heq2
            cases heq2
            rfl
      · rfl

/-- Evaluation principle for the recursive dispatch loop: a computation of the
fuelled loop with sufficient fuel determines its value. -/
theorem tokenizeLoop_eval (s : List Char) (r : Except LexerError (List Token))
    (h : tokenizeFuel (s.length + 1) s = some r) : tokenizeLoop s = r := by
  have hc := tokenizeFuel_complete (s.length + 1) s (by omega)
  rw [h] at hc
  exact (Option.some.inj hc).symm

/-- Exhausted input yields exactly the `EOF` sentinel. -/
theorem tokenizeLoop_nil : tokenizeLoop [] = .ok [.EOF] :=
  tokenizeLoop_eval [] _ rfl

/-- Whitespace is skipped, no token emitted. -/
theorem tokenizeLoop_ws {ch : Char} (hws : isAsciiWhitespace ch = true)
    (rest : List Char) : tokenizeLoop (ch :: rest) = tokenizeLoop rest := by
  apply tokenizeLoop_eval
  simp only [List.length_cons, tokenizeFuel, hws, if_true]
  exact tokenizeFuel_complete _ _ (by omega)

/-- Number dispatch, integer outcome. -/
theorem tokenizeLoop_int {ch : Char} {rest rest2 : List Char} {n : Int}
    (hws : isAsciiWhitespace ch = false) (hnum : (isAsciiDigit ch || ch = '.') = true)
    (hmk : makeNumber ch rest = .ok (.Left n, rest2)) :
    tokenizeLoop (ch :: rest) = (tokenizeLoop rest2).map (fun ts => Token.Int n :: ts) := by
  apply tokenizeLoop_eval
  simp only [List.length_cons, tokenizeFuel, hws, hnum, hmk, Bool.false_eq_true, if_false, if_true]
  rw [tokenizeFuel_complete (rest.length + 1) rest2 (by have := makeNumber_length hmk; omega)]
  rfl

/-- Number dispatch, float outcome. -/
theorem tokenizeLoop_float {ch : Char} {rest rest2 : List Char} {lit : List Char}
    (hws : isAsciiWhitespace ch = false) (hnum : (isAsciiDigit ch || ch = '.') = true)
    (hmk : makeNumber ch rest = .ok (.Right (String.mk lit), rest2)) :
    tokenizeLoop (ch :: rest) =
      (tokenizeLoop rest2).map (fun ts => Token.Float (String.mk lit) :: ts) := by
  apply tokenizeLoop_eval
  simp only [List.length_cons, tokenizeFuel, hws, hnum, hmk, Bool.false_eq_true, if_false, if_true]
  rw [tokenizeFuel_complete (rest.length + 1) rest2 (by have := makeNumber_length hmk; omega)]
  rfl

/-- Number dispatch, error outcome: the sub-routine error aborts the scan. -/
theorem tokenizeLoop_number_err {ch : Char} {rest : List Char} {e : LexerError}
    (hws : isAsciiWhitespace ch = false) (hnum : (isAsciiDigit ch || ch = '.') = true)
    (hmk : makeNumber ch rest = .error e) :
    tokenizeLoop (ch :: rest) = .error e := by
  apply tokenizeLoop_eval
  simp only [List.length_cons, tokenizeFuel, hws, hnum, hmk, Bool.false_eq_true, if_false, if_true]

/-- Symbol dispatch on the apostrophe marker, success outcome. -/
theorem tokenizeLoop_symbol {rest rest2 : List Char} {name : List Char}
    (hmk : makeSymbol none rest = .ok (name, rest2)) :
    tokenizeLoop ('\x27' :: rest) =
      (tokenizeLoop rest2).map (fun ts => Token.Symbol (String.mk name) :: ts) := by
  apply tokenizeLoop_eval
  simp only [List.length_cons, tokenizeFuel]
  rw [if_neg (by decide), if_neg (by decide), if_pos (by decide)]
  simp only [hmk]
  rw [tokenizeFuel_complete (rest.length + 1) rest2 (by have := makeSymbol_length hmk; omega)]
  rfl

/-- Symbol dispatch on the apostrophe marker, error outcome. -/
theorem tokenizeLoop_symbol_err {rest : List Char} {e : LexerError}
    (hmk : makeSymbol none rest = .error e) :
    tokenizeLoop ('\x27' :: rest) = .error e := by
  apply tokenizeLoop_eval
  simp only [List.length_cons, tokenizeFuel]
  rw [if_neg (by decide), if_neg (by decide), if_pos (by decide)]
  simp only [hmk]

/-- String dispatch on the opening quote, success outcome. -/
theorem tokenizeLoop_string {rest rest2 : List Char} {str : List Char}
    (hmk : makeStringLoop [] rest = .ok (str, rest2)) :
    tokenizeLoop ('"' :: rest) =
      (tokenizeLoop rest2).map (fun ts => Token.Str (String.mk str) :: ts) := by
  apply tokenizeLoop_eval
  simp only [List.length_cons, tokenizeFuel]
  rw [if_neg (by decide), if_neg (by decide), if_neg (by decide), if_pos (by decide)]
  simp only [hmk]
  rw [tokenizeFuel_complete (rest.length + 1) rest2 (by have := makeStringLoop_length hmk; omega)]
  rfl

/-- String dispatch on the opening quote, error outcome. -/
theorem tokenizeLoop_string_err {rest : List Char} {e : LexerError}
    (hmk : makeStringLoop [] rest = .error e) :
    tokenizeLoop ('"' :: rest) = .error e := by
  apply tokenizeLoop_eval
  simp only [List.length_cons, tokenizeFuel]
  rw [if_neg (by decide), if_neg (by decide), if_neg (by decide), if_pos (by decide)]
  simp only [hmk]

/-- An opening brace is its own token. -/
theorem tokenizeLoop_openBrace (rest : List Char) :
    tokenizeLoop ('{' :: rest) =
      (tokenizeLoop rest).map (fun ts => Token.OpeningBrace :: ts) := by
  apply tokenizeLoop_eval
  simp only [List.length_cons, tokenizeFuel]
  rw [if_neg (by decide), if_neg (by decide), if_neg (by decide), if_neg (by decide),
    if_pos (by decide)]
  rw [tokenizeFuel_complete (rest.length + 1) rest (by omega)]
  rfl

/-- A closing brace is its own token. -/
theorem tokenizeLoop_closeBrace (rest : List Char) :
    tokenizeLoop ('}' :: rest) =
      (tokenizeLoop rest).map (fun ts => Token.ClosingBrace :: ts) := by
  apply tokenizeLoop_eval
  simp only [List.length_cons, tokenizeFuel]
  rw [if_neg (by decide), if_neg (by decide), if_neg (by decide), if_neg (by decide),
    if_neg (by decide), if_pos (by decide)]
  rw [tokenizeFuel_complete (rest.length + 1) rest (by omega)]
  rfl

/-- Word dispatch on any other ASCII character, success outcome. -/
theorem tokenizeLoop_function {ch : Char} {rest rest2 : List Char} {name : List Char}
    (hws : isAsciiWhitespace ch = false) (hnum : (isAsciiDigit ch || ch = '.') = false)
    (hsym : ch ≠ '\x27') (hstr : ch ≠ '"') (hopen : ch ≠ '{') (hclose : ch ≠ '}')
    (hascii : ch.toNat < 128)
    (hmk : makeSymbol (some ch) rest = .ok (name, rest2)) :
    tokenizeLoop (ch :: rest) =
      (tokenizeLoop rest2).map (fun ts => Token.Function (String.mk name) :: ts) := by
  apply tokenizeLoop_eval
  simp only [List.length_cons, tokenizeFuel, hws, hnum, hsym, hstr, hopen, hclose, hascii,
    hmk, Bool.false_eq_true, if_false, if_true]
  rw [tokenizeFuel_complete (rest.length + 1) rest2 (by have := makeSymbol_length hmk; omega)]
  rfl

/-- Word dispatch on any other ASCII character, error outcome. -/
theorem tokenizeLoop_function_err {ch : Char} {rest : List Char} {e : LexerError}
    (hws : isAsciiWhitespace ch = false) (hnum : (isAsciiDigit ch || ch = '.') = false)
    (hsym : ch ≠ '\x27') (hstr : ch ≠ '"') (hopen : ch ≠ '{') (hclose : ch ≠ '}')
    (hascii : ch.toNat < 128)
    (hmk : makeSymbol (some ch) rest = .error e) :
    tokenizeLoop (ch :: rest) = .error e := by
  apply tokenizeLoop_eval
  simp only [List.length_cons, tokenizeFuel, hws, hnum, hsym, hstr, hopen, hclose, hascii,
    hmk, Bool.false_eq_true, if_false, if_true]

/-- A character that a number scan consumes and pushes: not the legal exit
character, not reserved, not ASCII whitespace, and not a decimal point. -/
def plainNumChar (c : Char) : Bool :=
  c != '}' && c != '\x27' && c != '{' && !isAsciiWhitespace c && c != '.'

/-- A character that a symbol/word scan consumes and pushes: not the legal
exit character, not reserved, and not ASCII whitespace. -/
def plainSymChar (c : Char) : Bool :=
  c != '}' && c != '\x27' && c != '{' && !isAsciiWhitespace c

/-- Membership in `LEGAL_EXIT_CHARS` tests equality with the closing brace. -/
theorem contains_exit (c : Char) : LEGAL_EXIT_CHARS.contains c = (c == '}') := by
  cases h : c == '}' <;> simp [LEGAL_EXIT_CHARS, List.contains, List.elem, h]

/-- Membership in `RESERVED_CHARS` tests equality with apostrophe or opening brace. -/
theorem contains_reserved (c : Char) :
    RESERVED_CHARS.contains c = (c == '\x27' || c == '{') := by
  cases h1 : c == '\x27' <;> cases h2 : c == '{' <;>
    simp [RESERVED_CHARS, List.contains, List.elem, h1, h2]

/-- The five ASCII whitespace characters, by cases. -/
theorem isAsciiWhitespace_cases {c : Char} (h : isAsciiWhitespace c = true) :
    c = ' ' ∨ c = '\t' ∨ c = '\n' ∨ c = '\x0C' ∨ c = '\r' := by
  simp only [isAsciiWhitespace, Bool.or_eq_true, decide_eq_true_eq] at h
  tauto

/-- An ASCII digit is not whitespace. -/
theorem digit_not_ws {c : Char} (h : isAsciiDigit c = true) :
    isAsciiWhitespace c = false := by
  cases hw : isAsciiWhitespace c
  · rfl
  · rcases isAsciiWhitespace_cases hw with rfl | rfl | rfl | rfl | rfl <;>
      simp [isAsciiDigit] at h

/-- An ASCII digit is a plain number-scan character. -/
theorem digit_plainNum {c : Char} (h : isAsciiDigit c = true) : plainNumChar c = true := by
  have h1 : c ≠ '}' := by rintro rfl; simp [isAsciiDigit] at h
  have h2 : c ≠ '\x27' := by rintro rfl; simp [isAsciiDigit] at h
  have h3 : c ≠ '{' := by rintro rfl; simp [isAsciiDigit] at h
  have h4 : c ≠ '.' := by rintro rfl; simp [isAsciiDigit] at h
  simp [plainNumChar, h1, h2, h3, h4, digit_not_ws h]

/-- One consuming step of the number-scan loop. -/
theorem makeNumberLoop_push {c : Char} (hc : plainNumChar c = true)
    (hasDot : Bool) (numStr : List Char) (t : List Char) :
    makeNumberLoop hasDot numStr (c :: t) = makeNumberLoop hasDot (numStr ++ [c]) t := by
  simp only [plainNumChar, Bool.and_eq_true, bne_iff_ne, ne_eq, Bool.not_eq_true'] at hc
  obtain ⟨⟨⟨⟨h1, h2⟩, h3⟩, h4⟩, h5⟩ := hc
  simp only [makeNumberLoop, contains_exit, contains_reserved]
  rw [if_neg (by simp [h1]), if_neg (by simp [h2, h3]), if_neg (by simp [h4]), if_neg h5]

/-- The number-scan loop consumes a run of plain characters. -/
theorem makeNumberLoop_append {ds : List Char} (h : ds.all plainNumChar = true)
    (hasDot : Bool) (numStr : List Char) (rest : List Char) :
    makeNumberLoop hasDot numStr (ds ++ rest) = makeNumberLoop hasDot (numStr ++ ds) rest := by
  induction ds generalizing numStr with
  | nil => simp
  | cons c ds ih =>
    simp only [List.all_cons, Bool.and_eq_true] at h
    rw [List.cons_append, makeNumberLoop_push h.1, ih h.2]
    simp

/-- The number-scan loop stops at exhausted input. -/
theorem makeNumberLoop_nil (hasDot : Bool) (numStr : List Char) :
    makeNumberLoop hasDot numStr [] = .ok (numStr, hasDot, []) := rfl

/-- The number-scan loop consumes whitespace and stops. -/
theorem makeNumberLoop_ws {c : Char} (hc : isAsciiWhitespace c = true)
    (hasDot : Bool) (numStr : List Char) (r : List Char) :
    makeNumberLoop hasDot numStr (c :: r) = .ok (numStr, hasDot, r) := by
  rcases isAsciiWhitespace_cases hc with rfl | rfl | rfl | rfl | rfl <;> rfl

/-- The number-scan loop stops at a closing brace without consuming it. -/
theorem makeNumberLoop_close (hasDot : Bool) (numStr : List Char) (r : List Char) :
    makeNumberLoop hasDot numStr ('}' :: r) = .ok (numStr, hasDot, '}' :: r) := rfl

/-- The number-scan loop fails on a peeked reserved character. -/
theorem makeNumberLoop_reserved {c : Char} (hc : c = '\x27' ∨ c = '{')
    (hasDot : Bool) (numStr : List Char) (r : List Char) :
    makeNumberLoop hasDot numStr (c :: r) = .error .InvalidNumber := by
  rcases hc with rfl | rfl <;> rfl

/-- One consuming step of the symbol/word-scan loop. -/
theorem makeSymbolLoop_push {c : Char} (hc : plainSymChar c = true)
    (acc : List Char) (t : List Char) :
    makeSymbolLoop acc (c :: t) = makeSymbolLoop (acc ++ [c]) t := by
  simp only [plainSymChar, Bool.and_eq_true, bne_iff_ne, ne_eq, Bool.not_eq_true'] at hc
  obtain ⟨⟨⟨h1, h2⟩, h3⟩, h4⟩ := hc
  simp only [makeSymbolLoop, contains_exit, contains_reserved]
  rw [if_neg (by simp [h1, h4]), if_neg (by simp [h2, h3])]

/-- The symbol/word-scan loop consumes a run of plain characters. -/
theorem makeSymbolLoop_append {body : List Char} (h : body.all plainSymChar = true)
    (acc : List Char) (rest : List Char) :
    makeSymbolLoop acc (body ++ rest) = makeSymbolLoop (acc ++ body) rest := by
  induction body generalizing acc with
  | nil => simp
  | cons c body ih =>
    simp only [List.all_cons, Bool.and_eq_true] at h
    rw [List.cons_append, makeSymbolLoop_push h.1, ih h.2]
    simp

/-- The symbol/word-scan loop stops at exhausted input. -/
theorem makeSymbolLoop_nil (acc : List Char) : makeSymbolLoop acc [] = .ok (acc, []) := rfl

/-- The symbol/word-scan loop stops at a closing brace or whitespace without
consuming it. -/
theorem makeSymbolLoop_stop {c : Char} (hc : c = '}' ∨ isAsciiWhitespace c = true)
    (acc : List Char) (r : List Char) :
    makeSymbolLoop acc (c :: r) = .ok (acc, c :: r) := by
  rcases hc with rfl | hw
  · rfl
  · rcases isAsciiWhitespace_cases hw with rfl | rfl | rfl | rfl | rfl <;> rfl

/-- The symbol/word-scan loop fails on a peeked reserved character. -/
theorem makeSymbolLoop_reserved {c : Char} (hc : c = '\x27' ∨ c = '{')
    (acc : List Char) (r : List Char) :
    makeSymbolLoop acc (c :: r) = .error .InvalidSymbolName := by
  rcases hc with rfl | rfl <;> rfl

/-- The string-scan loop accumulates everything up to the first quote verbatim
and consumes the quote. -/
theorem makeStringLoop_until_quote {pre : List Char} (h : pre.all (· != '"') = true)
    (acc : List Char) (rest : List Char) :
    makeStringLoop acc (pre ++ '"' :: rest) = .ok (acc ++ pre, rest) := by
  induction pre generalizing acc with
  | nil => simp [makeStringLoop]
  | cons c pre ih =>
    simp only [List.all_cons, Bool.and_eq_true, bne_iff_ne, ne_eq] at h
    rw [List.cons_append, makeStringLoop, if_neg h.1, ih h.2]
    simp

/-- The string-scan loop fails if the input holds no closing quote. -/
theorem makeStringLoop_unterminated {s : List Char} (h : s.all (· != '"') = true)
    (acc : List Char) : makeStringLoop acc s = .error .UnterminatedString := by
  induction s generalizing acc with
  | nil => rfl
  | cons c s ih =>
    simp only [List.all_cons, Bool.and_eq_true, bne_iff_ne, ne_eq] at h
    rw [makeStringLoop, if_neg h.1, ih h.2]

/-- Parsing a non-empty in-range all-digit string with `parse::<i64>` yields its value. -/
theorem parseI64_digits {ds : List Char} (h : ds.all isAsciiDigit = true) (hne : ds ≠ [])
    (hrange : digitsToNat ds ≤ 2 ^ 63 - 1) :
    parseI64 ds = some (Int.ofNat (digitsToNat ds)) := by
  match ds with
  | c :: rest =>
    simp only [List.all_cons, Bool.and_eq_true] at h
    have hminus : c ≠ '-' := by rintro rfl; simp [isAsciiDigit] at h
    have hplus : c ≠ '+' := by rintro rfl; simp [isAsciiDigit] at h
    simp only [parseI64, if_neg hminus, if_neg hplus, List.isEmpty_cons, Bool.false_eq_true,
      if_false, List.all_cons, h.1, h.2, Bool.and_self, Bool.not_true, if_pos hrange]

/-- A successful `parse::<i64>` whose first character is not a minus sign is
non-negative. -/
theorem parseI64_nonneg {c : Char} {tl : List Char} {n : Int}
    (h : parseI64 (c :: tl) = some n) (hc : c ≠ '-') : 0 ≤ n := by
  simp only [parseI64, if_neg hc] at h
  split_ifs at h <;>
    first
      | exact Option.noConfusion h
      | (exfalso; assumption)
      | (simp only [Int.ofNat_eq_coe] at h; rw [Option.some.injEq] at h; omega)

/-- The number-scan loop extends its accumulator. -/
theorem makeNumberLoop_acc_prefix {hasDot : Bool} {numStr t ns : List Char} {hd2 : Bool}
    {r : List Char} (h : makeNumberLoop hasDot numStr t = .ok (ns, hd2, r)) :
    ∃ tl, ns = numStr ++ tl := by
  induction t generalizing hasDot numStr with
  | nil =>
    rw [makeNumberLoop_nil] at h
    cases h
    exact ⟨[], by simp⟩
  | cons c rest ih =>
    simp only [makeNumberLoop] at h
    split at h
    · cases h; exact ⟨[], by simp⟩
    · split at h
      · cases h
      · split at h
        · cases h; exact ⟨[], by simp⟩
        · split at h
          · split at h
            · cases h
            · obtain ⟨tl, htl⟩ := ih h
              exact ⟨'.' :: tl, by simp [htl]⟩
          · obtain ⟨tl, htl⟩ := ih h
            exact ⟨c :: tl, by simp [htl]⟩

/-- The `has_dot` flag never resets once set. -/
theorem makeNumberLoop_hasDot_mono {numStr t ns : List Char} {hd2 : Bool} {r : List Char}
    (h : makeNumberLoop true numStr t = .ok (ns, hd2, r)) : hd2 = true := by
  induction t generalizing numStr with
  | nil => rw [makeNumberLoop_nil] at h; cases h; rfl
  | cons c rest ih =>
    simp only [makeNumberLoop] at h
    split at h
    · cases h; rfl
    · split at h
      · cases h
      · split at h
        · cases h; rfl
        · split at h
          · split at h
            · cases h
            · exact ih h
          · exact ih h

/-- A run of digits at the head of the input, followed by nothing or by a space,
lexes to one `Int` token carrying the value of the run (when it fits in `i64`). -/
theorem tokenizeLoop_digit_run {ds : List Char} (hne : ds ≠ [])
    (hdig : ds.all isAsciiDigit = true) (hrange : digitsToNat ds ≤ 2 ^ 63 - 1)
    {rest : List Char} (hsep : rest = [] ∨ ∃ r, rest = ' ' :: r) :
    tokenizeLoop (ds ++ rest) =
      (tokenizeLoop rest).map (fun ts => Token.Int (Int.ofNat (digitsToNat ds)) :: ts) := by
  match ds, hne with
  | d :: ds2, _ =>
    simp only [List.all_cons, Bool.and_eq_true] at hdig
    have hd : isAsciiDigit d = true := hdig.1
    have hplain : ds2.all plainNumChar = true := by
      rw [List.all_eq_true] at hdig ⊢
      exact fun x hx => digit_plainNum (hdig.2 x hx)
    have hdot : decide (d = '.') = false :=
      decide_eq_false (by rintro rfl; simp [isAsciiDigit] at hd)
    have hdnum : (isAsciiDigit d || d = '.') = true := by simp [hd]
    rcases hsep with rfl | ⟨r, rfl⟩
    · have hloop : makeNumberLoop (decide (d = '.')) [d] (ds2 ++ []) =
          .ok ([d] ++ ds2, false, []) := by
        rw [makeNumberLoop_append hplain, hdot, makeNumberLoop_nil]
      have hmk : makeNumber d (ds2 ++ []) =
          .ok (.Left (Int.ofNat (digitsToNat (d :: ds2))), []) := by
        simp only [makeNumber, hloop, Bool.false_eq_true, if_false]
        rw [parseI64_digits (by simp [hd, hdig.2]) (by simp) (by simpa using hrange)]
        simp
      have hstep := tokenizeLoop_int (digit_not_ws hd) hdnum hmk
      rw [List.cons_append, hstep, tokenizeLoop_nil]
    · have hloop : makeNumberLoop (decide (d = '.')) [d] (ds2 ++ ' ' :: r) =
          .ok ([d] ++ ds2, false, r) := by
        rw [makeNumberLoop_append hplain, hdot, makeNumberLoop_ws (by decide)]
      have hmk : makeNumber d (ds2 ++ ' ' :: r) =
          .ok (.Left (Int.ofNat (digitsToNat (d :: ds2))), r) := by
        simp only [makeNumber, hloop, Bool.false_eq_true, if_false]
        rw [parseI64_digits (by simp [hd, hdig.2]) (by simp) (by simpa using hrange)]
        simp
      have hstep := tokenizeLoop_int (digit_not_ws hd) hdnum hmk
      rw [List.cons_append, hstep, tokenizeLoop_ws (by decide)]

/-- C1 (amended): for every text of ASCII digits (no sign) whose value fits in a
64-bit signed integer, `tokenize` succeeds and returns exactly the two-token
sequence `[Int v, EOF]` where `v` is the integer value of the text.  (The
original claim also covered texts with a leading minus sign; those enter word
recognition instead and yield a `Function` token, see the counterexample.) -/
theorem tokenize_int_literal (s : String) (h1 : s.data ≠ [])
    (h2 : s.data.all isAsciiDigit = true) (h3 : digitsToNat s.data ≤ 2 ^ 63 - 1) :
    tokenize s = .ok [Token.Int (Int.ofNat (digitsToNat s.data)), Token.EOF] := by
  have h := tokenizeLoop_digit_run h1 h2 h3 (Or.inl rfl)
  rw [List.append_nil] at h
  show tokenizeLoop s.data = _
  rw [h, tokenizeLoop_nil]
  rfl

/-- C1 witness: `tokenize "42"` is `[Int 42, EOF]`. -/
theorem tokenize_int_literal_witness :
    tokenize "42" = .ok [Token.Int 42, Token.EOF] :=
  tokenize_int_literal "42" (by decide) (by decide) (by decide)

/-- C1 counterexample: a leading minus sign is dispatched to word recognition,
so `"-1"` lexes to `[Function "-1", EOF]` and not to `[Int (-1), EOF]` as the
claim requires. -/
theorem tokenize_negative_int_counterexample :
    tokenize "-1" = .ok [Token.Function "-1", Token.EOF] ∧
      tokenize "-1" ≠ .ok [Token.Int (-1), Token.EOF] := by
  have he : tokenize "-1" = .ok [Token.Function "-1", Token.EOF] :=
    tokenizeLoop_eval "-1".data _ rfl
  refine ⟨he, ?_⟩
  rw [he]
  simp

/-- C3: a reserved character (apostrophe or opening brace) encountered inside
the body of a numeric literal fails the scan with `InvalidNumber`, and inside
the body of a symbol or word fails it with `InvalidSymbolName`; it is never a
silent terminator.  Stated both for the recognition loops at any loop state and
for `tokenize` on inputs whose scan reaches the reserved character inside the
lexeme body. -/
theorem reserved_char_errors (r : Char) (hr : r = '\x27' ∨ r = '{') :
    (∀ (hasDot : Bool) (numStr rest : List Char),
      makeNumberLoop hasDot numStr (r :: rest) = .error .InvalidNumber) ∧
    (∀ (acc rest : List Char),
      makeSymbolLoop acc (r :: rest) = .error .InvalidSymbolName) ∧
    (∀ (d : Char) (body rest : List Char), isAsciiDigit d = true →
      body.all plainNumChar = true →
      tokenizeLoop (d :: (body ++ r :: rest)) = .error .InvalidNumber) ∧
    (∀ (c : Char) (body rest : List Char), isAsciiWhitespace c = false →
      (isAsciiDigit c || c = '.') = false → c ≠ '\x27' → c ≠ '"' → c ≠ '{' →
      c ≠ '}' → c.toNat < 128 → body.all plainSymChar = true →
      tokenizeLoop (c :: (body ++ r :: rest)) = .error .InvalidSymbolName) ∧
    (∀ (body rest : List Char), body.all plainSymChar = true →
      tokenizeLoop ('\x27' :: (body ++ r :: rest)) = .error .InvalidSymbolName) := by
  refine ⟨fun hasDot numStr rest => makeNumberLoop_reserved hr hasDot numStr rest,
    fun acc rest => makeSymbolLoop_reserved hr acc rest, ?_, ?_, ?_⟩
  · intro d body rest hd hbody
    have hmk : makeNumber d (body ++ r :: rest) = .error .InvalidNumber := by
      simp only [makeNumber, makeNumberLoop_append hbody, makeNumberLoop_reserved hr]
    exact tokenizeLoop_number_err (digit_not_ws hd) (by simp [hd]) hmk
  · intro c body rest hws hnum hsym hstr hopen hclose hascii hbody
    have hmk : makeSymbol (some c) (body ++ r :: rest) = .error .InvalidSymbolName := by
      show makeSymbolLoop [c] (body ++ r :: rest) = _
      rw [makeSymbolLoop_append hbody, makeSymbolLoop_reserved hr]
    exact tokenizeLoop_function_err hws hnum hsym hstr hopen hclose hascii hmk
  · intro body rest hbody
    have hmk : makeSymbol none (body ++ r :: rest) = .error .InvalidSymbolName := by
      show makeSymbolLoop [] (body ++ r :: rest) = _
      rw [makeSymbolLoop_append hbody, makeSymbolLoop_reserved hr]
    exact tokenizeLoop_symbol_err hmk

/-- C3 witness: the spec example: an apostrophe inside a word body, as in
`foo'bar`, fails the whole scan with `InvalidSymbolName`. -/
theorem reserved_char_errors_witness :
    tokenize "foo\x27bar" = .error .InvalidSymbolName :=
  (reserved_char_errors '\x27' (Or.inl rfl)).2.2.2.1 'f' ['o', 'o'] ['b', 'a', 'r']
    (by decide) (by decide) (by decide) (by decide) (by decide) (by decide) (by decide)
    (by decide)

/-- C5: the scanner never panics.  The `unwrap` inside symbol/word recognition
is unreachable — the loop with the panic effect modelled explicitly (`none` =
panic) always returns `some` and agrees with the plain loop — and `tokenize`
always returns either a token sequence or a `LexerError` value, for every
input, non-ASCII and malformed ones included. -/
theorem tokenize_total_no_panic :
    (∀ (acc text : List Char), makeSymbolLoopP acc text = some (makeSymbolLoop acc text)) ∧
    (∀ s : List Char, (∃ ts, tokenizeLoop s = .ok ts) ∨ (∃ e, tokenizeLoop s = .error e)) := by
  constructor
  · intro acc text
    induction text generalizing acc with
    | nil => rw [makeSymbolLoopP.eq_def]; rfl
    | cons c rest ih =>
      rw [makeSymbolLoopP.eq_def]
      simp only [peek, next, List.head?_cons, List.tail_cons, makeSymbolLoop]
      split_ifs <;> simp [ih]
  · intro s
    cases h : tokenizeLoop s with
    | error e => exact Or.inr ⟨e, rfl⟩
    | ok ts => exact Or.inl ⟨ts, rfl⟩

/-- C6: a closing brace met while scanning a number or a word/symbol silently
terminates the lexeme without being consumed, and is then emitted as its own
`ClosingBrace` token by the next dispatch iteration; in particular the spec
example `{ 1 2 add }`. -/
theorem closing_brace_terminates :
    (∀ (hasDot : Bool) (numStr rest : List Char),
      makeNumberLoop hasDot numStr ('}' :: rest) = .ok (numStr, hasDot, '}' :: rest)) ∧
    (∀ (acc rest : List Char), makeSymbolLoop acc ('}' :: rest) = .ok (acc, '}' :: rest)) ∧
    (∀ rest : List Char, tokenizeLoop ('}' :: rest) =
      (tokenizeLoop rest).map (fun ts => Token.ClosingBrace :: ts)) ∧
    tokenize "{ 1 2 add }" = .ok [Token.OpeningBrace, Token.Int 1, Token.Int 2,
      Token.Function "add", Token.ClosingBrace, Token.EOF] :=
  ⟨makeNumberLoop_close, fun acc rest => makeSymbolLoop_stop (Or.inl rfl) acc rest,
    tokenizeLoop_closeBrace, tokenizeLoop_eval "{ 1 2 add }".data _ rfl⟩

/-- C7: string recognition accumulates every character before the first
closing quote verbatim and consumes that quote; if no closing quote exists the
scan fails with `UnterminatedString` — stated for the recognition loop and for
`tokenize` dispatch on an opening quote. -/
theorem string_recognition (pre rest : List Char) (h : pre.all (· != '"') = true) :
    makeStringLoop [] (pre ++ '"' :: rest) = .ok (pre, rest) ∧
    makeStringLoop [] pre = .error .UnterminatedString ∧
    tokenizeLoop ('"' :: (pre ++ '"' :: rest)) =
      (tokenizeLoop rest).map (fun ts => Token.Str (String.mk pre) :: ts) ∧
    tokenizeLoop ('"' :: pre) = .error .UnterminatedString := by
  have h1 : makeStringLoop [] (pre ++ '"' :: rest) = .ok (pre, rest) := by
    simpa using makeStringLoop_until_quote h [] rest
  have h2 := makeStringLoop_unterminated h []
  exact ⟨h1, h2, tokenizeLoop_string h1, tokenizeLoop_string_err h2⟩

/-- C7 witness: the spec examples, a terminated and an unterminated string. -/
theorem string_recognition_witness :
    tokenizeLoop ('"' :: ("hello world".data ++ '"' :: [])) =
      (tokenizeLoop []).map (fun ts => Token.Str (String.mk "hello world".data) :: ts) ∧
    tokenizeLoop ('"' :: "unterminated".data) = .error .UnterminatedString :=
  ⟨(string_recognition "hello world".data [] (by decide)).2.2.1,
    (string_recognition "unterminated".data [] (by decide)).2.2.2⟩

/-- C8: an apostrophe immediately followed by end of input, ASCII whitespace,
or a closing brace yields an empty-text `Symbol` token, not an error; in
particular the spec examples for a bare apostrophe and a symbol prefix. -/
theorem empty_symbol_accepted (c : Char) (rest : List Char)
    (h : isAsciiWhitespace c = true ∨ c = '}') :
    tokenize "\x27" = .ok [Token.Symbol "", Token.EOF] ∧
    tokenize "\x27foo" = .ok [Token.Symbol "foo", Token.EOF] ∧
    tokenizeLoop ['\x27'] = .ok [Token.Symbol "", Token.EOF] ∧
    tokenizeLoop ('\x27' :: c :: rest) =
      (tokenizeLoop (c :: rest)).map (fun ts => Token.Symbol "" :: ts) := by
  refine ⟨tokenizeLoop_eval "\x27".data _ rfl, tokenizeLoop_eval "\x27foo".data _ rfl,
    tokenizeLoop_eval ['\x27'] _ rfl, ?_⟩
  have hsym : makeSymbol none (c :: rest) = .ok ([], c :: rest) :=
    makeSymbolLoop_stop h.symm [] rest
  exact tokenizeLoop_symbol hsym

/-- C8 witness: a bare apostrophe, and an apostrophe followed by a space. -/
theorem empty_symbol_accepted_witness :
    tokenize "\x27" = .ok [Token.Symbol "", Token.EOF] ∧
    tokenizeLoop ('\x27' :: ' ' :: []) =
      (tokenizeLoop [' ']).map (fun ts => Token.Symbol "" :: ts) :=
  ⟨(empty_symbol_accepted ' ' [] (Or.inl (by decide))).1,
    (empty_symbol_accepted ' ' [] (Or.inl (by decide))).2.2.2⟩

/-- C9: `tokenize` always terminates in work proportional to the length of the
input: fuel `length + 1` for the main dispatch loop always suffices (every
iteration of the main loop and every recognition sub-loop step consumes at
least one input character or returns). -/
theorem tokenize_fuel_bound (s : List Char) (fuel : Nat) (h : s.length < fuel) :
    tokenizeFuel fuel s = some (tokenizeLoop s) :=
  tokenizeFuel_complete fuel s h

/-- C9 witness: fuel 3 suffices for a 2-character input. -/
theorem tokenize_fuel_bound_witness :
    tokenizeFuel 3 "ab".data = some (tokenizeLoop "ab".data) :=
  tokenize_fuel_bound "ab".data 3 (by decide)

/-- Every success of the fuelled dispatch loop ends in exactly one `EOF`. -/
theorem tokenizeFuel_eof {fuel : Nat} {s : List Char} {ts : List Token}
    (h : tokenizeFuel fuel s = some (.ok ts)) :
    ∃ front, ts = front ++ [Token.EOF] ∧ Token.EOF ∉ front := by
  induction fuel generalizing s ts with
  | zero => simp [tokenizeFuel] at h
  | succ fuel ih =>
    have step : ∀ (tok : Token) (r2 : List Char), tok ≠ Token.EOF →
        (tokenizeFuel fuel r2).map (fun r => r.map (fun l => tok :: l)) = some (.ok ts) →
        ∃ front, ts = front ++ [Token.EOF] ∧ Token.EOF ∉ front := by
      intro tok r2 hne hmap
      cases hrec : tokenizeFuel fuel r2 with
      | none => rw [hrec] at hmap; simp at hmap
      | some r =>
        rw [hrec] at hmap
        cases r with
        | error e => simp [Except.map] at hmap
        | ok ts2 =>
          simp only [Option.map_some', Except.map, Option.some.injEq,
            Except.ok.injEq] at hmap
          obtain ⟨front, hfr, hni⟩ := ih hrec
          refine ⟨tok :: front, ?_, ?_⟩
          · rw [← hmap, hfr, List.cons_append]
          · simp only [List.mem_cons, not_or]
            exact ⟨fun heq => hne heq.symm, hni⟩
    cases s with
    | nil =>
      simp only [tokenizeFuel, Option.some.injEq, Except.ok.injEq] at h
      subst h
      exact ⟨[], rfl, by simp⟩
    | cons ch rest =>
      simp only [tokenizeFuel] at h
      split_ifs at h
      · exact ih h
      · split at h
        · exact step _ _ (by simp) h
        · exact step _ _ (by simp) h
        · simp at h
      · split at h
        · exact step _ _ (by simp) h
        · simp at h
      · split at h
        · exact step _ _ (by simp) h
        · simp at h
      · exact step _ _ (by simp) h
      · exact step _ _ (by simp) h
      · split at h
        · exact step _ _ (by simp) h
        · simp at h
      · simp at h

/-- C4: on every input on which `tokenize` succeeds, the returned sequence is
non-empty, its last element is `EOF`, and `EOF` occurs nowhere else. -/
theorem tokenize_eof_invariant (s : String) (ts : List Token) (h : tokenize s = .ok ts) :
    ts ≠ [] ∧ ∃ front, ts = front ++ [Token.EOF] ∧ Token.EOF ∉ front := by
  have hf : tokenizeFuel (s.data.length + 1) s.data = some (.ok ts) := by
    rw [tokenizeFuel_complete _ _ (by omega)]
    exact congrArg some h
  obtain ⟨front, hfr, hni⟩ := tokenizeFuel_eof hf
  exact ⟨by rw [hfr]; simp, front, hfr, hni⟩

/-- C4 witness: the empty input yields `[EOF]`, which satisfies the invariant. -/
theorem tokenize_eof_invariant_witness :
    [Token.EOF] ≠ [] ∧ ∃ front, [Token.EOF] = front ++ [Token.EOF] ∧ Token.EOF ∉ front :=
  tokenize_eof_invariant "" [Token.EOF] (tokenizeLoop_eval [] _ rfl)

/-- A successful integer outcome of `make_number`, entered from number
dispatch (a digit or dot seed), is non-negative: a dot seed forces the float
path, and a digit seed makes the literal start with a digit, so the `i64`
parse sees no minus sign. -/
theorem makeNumber_int_nonneg {ch : Char} {t : List Char} {n : Int} {r : List Char}
    (hch : isAsciiDigit ch = true ∨ ch = '.')
    (h : makeNumber ch t = .ok (.Left n, r)) : 0 ≤ n := by
  rcases hch with hd | rfl
  · unfold makeNumber at h
    cases hloop : makeNumberLoop (decide (ch = '.')) [ch] t with
    | error e => rw [hloop] at h; cases h
    | ok res =>
      obtain ⟨ns, hd2, rest⟩ := res
      rw [hloop] at h
      cases hd2 with
      | true =>
        dsimp only at h
        rw [if_pos rfl] at h
        split_ifs at h <;> cases h
      | false =>
        dsimp only at h
        cases hp : parseI64 ns with
        | none => rw [hp] at h; cases h
        | some m =>
          rw [hp] at h
          cases h
          obtain ⟨tl, htl⟩ := makeNumberLoop_acc_prefix hloop
          rw [htl] at hp
          exact parseI64_nonneg hp (by rintro rfl; simp [isAsciiDigit] at hd)
  · unfold makeNumber at h
    cases hloop : makeNumberLoop (decide ('.' = '.')) ['.'] t with
    | error e => rw [hloop] at h; cases h
    | ok res =>
      obtain ⟨ns, hd2, rest⟩ := res
      rw [hloop] at h
      have hd2t : hd2 = true := makeNumberLoop_hasDot_mono hloop
      subst hd2t
      dsimp only at h
      rw [if_pos rfl] at h
      split_ifs at h <;> cases h

/-- Every `Int` token in a success of the fuelled dispatch loop is
non-negative. -/
theorem tokenizeFuel_int_nonneg {fuel : Nat} {s : List Char} {ts : List Token}
    (h : tokenizeFuel fuel s = some (.ok ts)) :
    ∀ n : Int, Token.Int n ∈ ts → 0 ≤ n := by
  induction fuel generalizing s ts with
  | zero => simp [tokenizeFuel] at h
  | succ fuel ih =>
    have step : ∀ (tok : Token) (r2 : List Char),
        (∀ m : Int, tok = Token.Int m → 0 ≤ m) →
        (tokenizeFuel fuel r2).map (fun r => r.map (fun l => tok :: l)) = some (.ok ts) →
        ∀ n : Int, Token.Int n ∈ ts → 0 ≤ n := by
      intro tok r2 htok hmap n hmem
      cases hrec : tokenizeFuel fuel r2 with
      | none => rw [hrec] at hmap; simp at hmap
      | some r =>
        rw [hrec] at hmap
        cases r with
        | error e => simp [Except.map] at hmap
        | ok ts2 =>
          simp only [Option.map_some', Except.map, Option.some.injEq,
            Except.ok.injEq] at hmap
          rw [← hmap] at hmem
          rcases List.mem_cons.mp hmem with heq | hmem2
          · exact htok n heq.symm
          · exact ih hrec n hmem2
    cases s with
    | nil =>
      simp only [tokenizeFuel, Option.some.injEq, Except.ok.injEq] at h
      intro n hmem
      rw [← h] at hmem
      simp at hmem
    | cons ch rest =>
      simp only [tokenizeFuel] at h
      split_ifs at h with hws hnum hsym hstr hopen hclose hascii
      · exact ih h
      · split at h
        · rename_i int rest2 heq
          refine step _ _ ?_ h
          intro m hm
          cases hm
          exact makeNumber_int_nonneg (by simpa using hnum) heq
        · exact step _ _ (by intro m hm; cases hm) h
        · simp at h
      · split at h
        · exact step _ _ (by intro m hm; cases hm) h
        · simp at h
      · split at h
        · exact step _ _ (by intro m hm; cases hm) h
        · simp at h
      · exact step _ _ (by intro m hm; cases hm) h
      · exact step _ _ (by intro m hm; cases hm) h
      · split at h
        · exact step _ _ (by intro m hm; cases hm) h
        · simp at h
      · simp at h

/-- C10: on every input on which `tokenize` succeeds, every `Int` token in the
result has a non-negative value. -/
theorem int_tokens_nonneg (s : String) (ts : List Token) (h : tokenize s = .ok ts)
    (n : Int) (hmem : Token.Int n ∈ ts) : 0 ≤ n := by
  have hf : tokenizeFuel (s.data.length + 1) s.data = some (.ok ts) := by
    rw [tokenizeFuel_complete _ _ (by omega)]
    exact congrArg some h
  exact tokenizeFuel_int_nonneg hf n hmem

/-- C10 witness: `tokenize "5"` succeeds with an `Int 5` token, and 5 is
non-negative. -/
theorem int_tokens_nonneg_witness :
    tokenize "5" = .ok [Token.Int 5, Token.EOF] ∧ (0 : Int) ≤ 5 :=
  ⟨tokenizeLoop_eval "5".data _ rfl,
    int_tokens_nonneg "5" [Token.Int 5, Token.EOF] (tokenizeLoop_eval "5".data _ rfl) 5
      (by simp)⟩

/-- The decimal digit character for `n < 10`. -/
def digitChar (n : Nat) : Char := Char.ofNat (48 + n)

/-- Decimal digit string of a natural number, most significant digit first;
`fuel` bounds the recursion depth (see `natDigits`). -/
def natDigitsAux : Nat → Nat → List Char
  | 0, _ => []
  | fuel + 1, n =>
    if n < 10 then [digitChar n]
    else natDigitsAux fuel (n / 10) ++ [digitChar (n % 10)]

/-- Decimal digit string of a natural number (`n + 1` units of fuel always
suffice since a number has at most `n + 1` digits). -/
def natDigits (n : Nat) : List Char := natDigitsAux (n + 1) n

/-- Digit characters are digits with the right value. -/
theorem digitChar_props : ∀ n : Nat, n < 10 →
    isAsciiDigit (digitChar n) = true ∧ digitVal (digitChar n) = n := by decide

/-- Appending one digit multiplies the value by ten and adds the digit. -/
theorem digitsToNat_snoc (xs : List Char) (c : Char) :
    digitsToNat (xs ++ [c]) = digitsToNat xs * 10 + digitVal c := by
  simp [digitsToNat, List.foldl_append]

/-- With sufficient fuel, `natDigitsAux` produces a non-empty all-digit string
whose value is the input. -/
theorem natDigitsAux_spec : ∀ (fuel n : Nat), n < fuel →
    (natDigitsAux fuel n).all isAsciiDigit = true ∧ natDigitsAux fuel n ≠ [] ∧
      digitsToNat (natDigitsAux fuel n) = n := by
  intro fuel
  induction fuel with
  | zero => intro n hn; omega
  | succ fuel ih =>
    intro n hn
    rw [natDigitsAux]
    by_cases h10 : n < 10
    · rw [if_pos h10]
      refine ⟨?_, by simp, ?_⟩
      · simp [(digitChar_props n h10).1]
      · simp [digitsToNat, (digitChar_props n h10).2]
    · rw [if_neg h10]
      obtain ⟨ha, hne, hval⟩ := ih (n / 10) (by omega)
      have hm := digitChar_props (n % 10) (by omega)
      refine ⟨?_, by simp, ?_⟩
      · simp [List.all_append, ha, hm.1]
      · rw [digitsToNat_snoc, hval, hm.2]
        omega

/-- The canonical textual form of a token, for the round-trip claim: decimal
form of an `Int`, the stored literal of a `Float`, the apostrophe-prefixed
name of a `Symbol`, the bare name of a `Function`, the quoted text of a
`Str`, the brace characters, and nothing for `EOF`. -/
def canonToken : Token → List Char
  | .EOF => []
  | .Function name => name.data
  | .Int v => if v < 0 then '-' :: natDigits v.natAbs else natDigits v.toNat
  | .Float lit => lit.data
  | .Symbol name => '\x27' :: name.data
  | .Str v => '"' :: v.data ++ ['"']
  | .OpeningBrace => ['{']
  | .ClosingBrace => ['}']

/-- Serialization of a token sequence: canonical textual forms joined by
single spaces. -/
def serializeTokens : List Token → List Char
  | [] => []
  | [t] => canonToken t
  | t :: t2 :: ts => canonToken t ++ ' ' :: serializeTokens (t2 :: ts)

/-- A character able to start a word (`Function`) lexeme: ASCII, and not
claimed by an earlier dispatch arm. -/
def goodStartChar (c : Char) : Bool :=
  decide (c.toNat < 128) && !isAsciiDigit c && c != '.' && c != '\x27' && c != '"' &&
    c != '{' && c != '}' && !isAsciiWhitespace c

/-- Well-formedness of a token for the amended round-trip claim: `Int` values
non-negative and within `i64` range, `Symbol` names made of plain symbol
characters, `Function` names non-empty, starting with a word-start character
and continuing with plain symbol characters, and braces; `EOF`, `Float` and
`Str` tokens are excluded. -/
def wfToken : Token → Bool
  | .Int v => decide (0 ≤ v) && decide (v ≤ 2 ^ 63 - 1)
  | .Symbol name => name.data.all plainSymChar
  | .Function name =>
    match name.data with
    | [] => false
    | c :: cs => goodStartChar c && cs.all plainSymChar
  | .OpeningBrace => true
  | .ClosingBrace => true
  | _ => false

/-- One serialized well-formed token at the head of the input, followed by
nothing or by a space, lexes to exactly that token. -/
theorem canon_step {t : Token} (hwf : wfToken t = true) {rest : List Char}
    (hsep : rest = [] ∨ ∃ r, rest = ' ' :: r) :
    tokenizeLoop (canonToken t ++ rest) = (tokenizeLoop rest).map (fun ts => t :: ts) := by
  cases t with
  | EOF => simp [wfToken] at hwf
  | Float lit => simp [wfToken] at hwf
  | Str v => simp [wfToken] at hwf
  | Int v =>
    simp only [wfToken, Bool.and_eq_true, decide_eq_true_eq] at hwf
    obtain ⟨h0, hle⟩ := hwf
    have hneg : ¬v < 0 := by omega
    simp only [canonToken, if_neg hneg]
    rw [show natDigits v.toNat = natDigitsAux (v.toNat + 1) v.toNat from rfl]
    obtain ⟨ha, hne, hval⟩ := natDigitsAux_spec (v.toNat + 1) v.toNat (by omega)
    have hrange : digitsToNat (natDigitsAux (v.toNat + 1) v.toNat) ≤ 2 ^ 63 - 1 := by
      rw [hval]
      omega
    rw [tokenizeLoop_digit_run hne ha hrange hsep]
    have hv : Int.ofNat (digitsToNat (natDigitsAux (v.toNat + 1) v.toNat)) = v := by
      rw [hval, Int.ofNat_eq_coe]
      exact Int.toNat_of_nonneg h0
    simp only [hv]
  | Symbol name =>
    simp only [wfToken] at hwf
    simp only [canonToken, List.cons_append]
    have hmk : makeSymbol none (name.data ++ rest) = .ok (name.data, rest) := by
      show makeSymbolLoop [] (name.data ++ rest) = _
      rw [makeSymbolLoop_append hwf]
      rcases hsep with rfl | ⟨r, rfl⟩
      · rw [makeSymbolLoop_nil]
        simp
      · rw [makeSymbolLoop_stop (Or.inr (by decide))]
        simp
    rw [tokenizeLoop_symbol hmk]
  | Function name =>
    simp only [wfToken] at hwf
    cases hd : name.data with
    | nil => rw [hd] at hwf; simp at hwf
    | cons c cs =>
      rw [hd] at hwf
      dsimp only at hwf
      rw [Bool.and_eq_true] at hwf
      obtain ⟨hstart, hcs⟩ := hwf
      simp only [goodStartChar, Bool.and_eq_true, bne_iff_ne, ne_eq, Bool.not_eq_true',
        decide_eq_true_eq] at hstart
      obtain ⟨⟨⟨⟨⟨⟨⟨hascii, hdig⟩, hdot⟩, hapos⟩, hquote⟩, hop⟩, hcl⟩, hws⟩ := hstart
      simp only [canonToken, hd, List.cons_append]
      have hmk : makeSymbol (some c) (cs ++ rest) = .ok (c :: cs, rest) := by
        show makeSymbolLoop [c] (cs ++ rest) = _
        rw [makeSymbolLoop_append hcs]
        rcases hsep with rfl | ⟨r, rfl⟩
        · rw [makeSymbolLoop_nil]
          simp
        · rw [makeSymbolLoop_stop (Or.inr (by decide))]
          simp
      rw [tokenizeLoop_function hws (by simp [hdig, hdot]) hapos hquote hop hcl hascii hmk]
      rw [← hd]
  | OpeningBrace =>
    simp only [canonToken, List.singleton_append]
    exact tokenizeLoop_openBrace rest
  | ClosingBrace =>
    simp only [canonToken, List.singleton_append]
    exact tokenizeLoop_closeBrace rest

/-- C2 (amended): for every token sequence of well-formed `Int`, `Symbol`,
`Function`, `OpeningBrace` and `ClosingBrace` tokens (`wfToken`), serializing
with the canonical textual form of each token and single spaces between tokens
and re-tokenizing returns the original sequence with a trailing `EOF`.
(The original claim fails already for `Int (-1)`, whose canonical form `-1`
re-tokenizes as a `Function` token — see the counterexample — and its `Float`
case is a property of 64-bit float formatting outside this embedding.) -/
theorem tokenize_serialize_roundtrip (ts : List Token) (hwf : ts.all wfToken = true) :
    tokenizeLoop (serializeTokens ts) = .ok (ts ++ [Token.EOF]) := by
  induction ts with
  | nil => simpa using tokenizeLoop_nil
  | cons t ts2 ih =>
    rw [List.all_cons, Bool.and_eq_true] at hwf
    cases ts2 with
    | nil =>
      rw [show serializeTokens [t] = canonToken t from rfl]
      rw [← List.append_nil (canonToken t), canon_step hwf.1 (Or.inl rfl), tokenizeLoop_nil]
      rfl
    | cons t2 ts3 =>
      rw [show serializeTokens (t :: t2 :: ts3) =
        canonToken t ++ ' ' :: serializeTokens (t2 :: ts3) from rfl]
      rw [canon_step hwf.1 (Or.inr ⟨_, rfl⟩), tokenizeLoop_ws (by decide), ih hwf.2]
      rfl

/-- C2 witness: a block of well-formed tokens (brace, int, symbol, word, brace) round-trips. -/
theorem tokenize_serialize_roundtrip_witness :
    tokenizeLoop (serializeTokens [Token.OpeningBrace, Token.Int 1, Token.Symbol "x",
      Token.Function "add", Token.ClosingBrace]) =
      .ok ([Token.OpeningBrace, Token.Int 1, Token.Symbol "x", Token.Function "add",
        Token.ClosingBrace] ++ [Token.EOF]) :=
  tokenize_serialize_roundtrip _ (by decide)

/-- C2 counterexample: the one-token sequence `[Int (-1)]` serializes to `-1`,
which re-tokenizes as `[Function "-1", EOF]`, not as the original sequence
plus `EOF`. -/
theorem roundtrip_counterexample :
    serializeTokens [Token.Int (-1)] = ['-', '1'] ∧
    tokenizeLoop (serializeTokens [Token.Int (-1)]) =
      .ok [Token.Function "-1", Token.EOF] ∧
    tokenizeLoop (serializeTokens [Token.Int (-1)]) ≠
      .ok ([Token.Int (-1)] ++ [Token.EOF]) := by
  have hs : serializeTokens [Token.Int (-1)] = ['-', '1'] := rfl
  have he : tokenizeLoop ['-', '1'] = .ok [Token.Function "-1", Token.EOF] :=
    tokenizeLoop_eval ['-', '1'] _ rfl
  refine ⟨hs, by rw [hs, he], ?_⟩
  rw [hs, he]
  simp

end Lexer
